import Mathlib

/-!
# FunnelForge — send-scheduling core: formal model and verification

The repository ships the authoring UI (contacts page, schedule page,
sample data).  The send scheduling and execution engine described in the
specification (Calendar Resolver, Schedule Planner, Throttle Gate,
Sequence Runner) has no implementation under the source tree, so those
components are modelled directly from the specification text; every such
definition is marked `Modelled from the spec:`.  The CSV parsing,
CSV import and contact-form logic are translated from
`funnel-forge/app/contacts/page.tsx`.
-/

/-! ## Time model

Instants are wall-clock values in the policy's timezone: a day number
(day `d` has weekday `d % 7`) and a minute-of-day.  Timezone conversion
itself is not modelled; all arithmetic happens in one timezone, as in
the spec's §4.1 where the policy's timezone fixes the calendar. -/

/-- A wall-clock instant: day number plus minute of day. -/
structure Instant where
  day : Nat
  minute : Nat
deriving Repr, DecidableEq

/-- Total minutes since day 0, the linear time scale used to compare
instants. -/
def Instant.toMinutes (i : Instant) : Nat := i.day * 1440 + i.minute

/-- Advance an instant by `m` minutes, carrying past midnight. -/
def Instant.addMinutes (i : Instant) (m : Nat) : Instant :=
  ⟨i.day + (i.minute + m) / 1440, (i.minute + m) % 1440⟩

/-- Weekday of a day number (0–6, cycling with period 7). -/
def weekday (d : Nat) : Fin 7 := ⟨d % 7, Nat.mod_lt _ (by norm_num)⟩

/-! ## Sending-days policy and the Calendar Resolver -/

/-- Modelled from the spec: §3 **SendingDaysPolicy** — a set of allowed
weekdays plus a timezone identifier.  The set is a predicate on the
seven weekdays; the timezone is carried but, since all instants are
already policy-local wall-clock values, not otherwise interpreted. -/
structure SendingDaysPolicy where
  allowedDays : Fin 7 → Bool
  timezone : String

/-- A policy has at least one allowed weekday. -/
def SendingDaysPolicy.hasAllowedDay (p : SendingDaysPolicy) : Bool :=
  (List.finRange 7).any p.allowedDays

/-- Modelled from the spec: §4.1 — advance one calendar day at a time
(bounded fuel, "max 7 iterations") until an allowed day is found. -/
def nextAllowedFrom (p : SendingDaysPolicy) : Nat → Nat → Option Nat
  | 0, _ => none
  | fuel + 1, d => if p.allowedDays (weekday d) then some d
                   else nextAllowedFrom p fuel (d + 1)

/-- Modelled from the spec: §4.1 Calendar Resolver —
`resolve(instant, policy)`: if the weekday of `instant` is allowed,
return it unchanged; otherwise advance one calendar day at a time
(max 7 iterations) to the next allowed day, preserving time-of-day.
`none` only arises when no weekday is allowed. -/
def resolve (i : Instant) (p : SendingDaysPolicy) : Option Instant :=
  (nextAllowedFrom p 7 i.day).map (fun d => ⟨d, i.minute⟩)

/-! ### Resolver lemmas -/

lemma nextAllowedFrom_spec (p : SendingDaysPolicy) :
    ∀ (n d d' : Nat), nextAllowedFrom p n d = some d' →
      d ≤ d' ∧ d' < d + n ∧ p.allowedDays (weekday d') = true ∧
        ∀ e, d ≤ e → e < d' → p.allowedDays (weekday e) = false := by
  intro n
  induction n with
  | zero => intro d d' h; simp [nextAllowedFrom] at h
  | succ m ih =>
    intro d d' h
    unfold nextAllowedFrom at h
    by_cases hd : p.allowedDays (weekday d) = true
    · simp [hd] at h
      subst h
      exact ⟨le_refl d, by omega, hd, fun e he1 he2 => absurd he1 (by omega)⟩
    · simp [hd] at h
      obtain ⟨h1, h2, h3, h4⟩ := ih (d + 1) d' h
      refine ⟨by omega, by omega, h3, ?_⟩
      intro e he1 he2
      rcases Nat.eq_or_lt_of_le he1 with he | he
      · subst he; simpa using hd
      · exact h4 e (by omega) he2

lemma exists_shift_mod (r k : Fin 7) : ∃ j, j < 7 ∧ (r.val + j) % 7 = k.val := by
  revert r k; decide

lemma nextAllowedFrom_isSome (p : SendingDaysPolicy) (d : Nat)
    (hp : p.hasAllowedDay = true) :
    ∃ d', nextAllowedFrom p 7 d = some d' := by
  have hk : ∃ k : Fin 7, p.allowedDays k = true := by
    rcases List.any_eq_true.mp hp with ⟨k, _, hk⟩
    exact ⟨k, hk⟩
  obtain ⟨k, hk⟩ := hk
  obtain ⟨j, hj7, hj⟩ := exists_shift_mod (weekday d) k
  have hall : p.allowedDays (weekday (d + j)) = true := by
    have : (d + j) % 7 = k.val := by
      have h1 : (d + j) % 7 = (d % 7 + j) % 7 := by omega
      rw [h1]
      simpa [weekday] using hj
    have hw : weekday (d + j) = k := by
      apply Fin.ext
      simpa [weekday] using this
    rw [hw]; exact hk
  -- search with fuel 7 starting at d reaches d + j (j < 7)
  clear hj hk hp
  have key : ∀ (fuel d : Nat), ∀ j < fuel, p.allowedDays (weekday (d + j)) = true →
      ∃ d', nextAllowedFrom p fuel d = some d' := by
    intro fuel
    induction fuel with
    | zero => intro d j hj _; omega
    | succ m ih =>
      intro d j hj hall
      unfold nextAllowedFrom
      by_cases hd : p.allowedDays (weekday d) = true
      · exact ⟨d, by simp [hd]⟩
      · have hj0 : j ≠ 0 := by
          intro h; subst h; simp at hall; exact hd hall
        obtain ⟨d', hd'⟩ := ih (d + 1) (j - 1) (by omega)
          (by have : d + 1 + (j - 1) = d + j := by omega
              rw [this]; exact hall)
        exact ⟨d', by simp [hd, hd']⟩
  exact key 7 d j hj7 hall

lemma resolve_eq_some (p : SendingDaysPolicy) (i : Instant)
    (hp : p.hasAllowedDay = true) :
    ∃ i', resolve i p = some i' ∧
      i.toMinutes ≤ i'.toMinutes ∧
      p.allowedDays (weekday i'.day) = true ∧
      i'.minute = i.minute ∧
      i'.day < i.day + 7 ∧
      (p.allowedDays (weekday i.day) = true → i' = i) := by
  obtain ⟨d', hd'⟩ := nextAllowedFrom_isSome p i.day hp
  obtain ⟨h1, h2, h3, _⟩ := nextAllowedFrom_spec p 7 i.day d' hd'
  refine ⟨⟨d', i.minute⟩, by simp [resolve, hd'], ?_, h3, rfl, h2, ?_⟩
  · simp [Instant.toMinutes]
    omega
  · intro hallow
    have : nextAllowedFrom p 7 i.day = some i.day := by
      unfold nextAllowedFrom
      simp [hallow]
    rw [this] at hd'
    cases hd'
    rfl

lemma nextAllowedFrom_mono (p : SendingDaysPolicy) (d₁ d₂ e₁ e₂ : Nat)
    (hd : d₁ ≤ d₂)
    (h₁ : nextAllowedFrom p 7 d₁ = some e₁)
    (h₂ : nextAllowedFrom p 7 d₂ = some e₂) : e₁ ≤ e₂ := by
  obtain ⟨h1a, h1b, h1c, h1d⟩ := nextAllowedFrom_spec p 7 d₁ e₁ h₁
  obtain ⟨h2a, h2b, h2c, h2d⟩ := nextAllowedFrom_spec p 7 d₂ e₂ h₂
  by_contra hlt
  push_neg at hlt
  have : p.allowedDays (weekday e₂) = false :=
    h1d e₂ (le_trans hd h2a) hlt
  rw [h2c] at this
  simp at this

/-! ## Sequence steps and the Schedule Planner -/

/-- Modelled from the spec: §3 **SequenceDefinition** step —
`Step{index, delayDays, timeOfDay}`; the index is the position in the
list, `timeOfDay` is a wall-clock time kept in minutes. -/
structure Step where
  delayDays : Nat
  timeOfDay : Nat
deriving Repr, DecidableEq

/-- Modelled from the spec: §3 **SendWindowConfig** —
`{enabled: bool, jitterMinutes: int}`; the integer type admits the
negative values that `StartRun` must reject (§6). -/
structure SendWindowConfig where
  enabled : Bool
  jitterMinutes : Int
deriving Repr, DecidableEq

/-- Modelled from the spec: §4.2 — the base instant of a step:
`startDate + delayDays[i]` at `timeOfDay[i]`. -/
def baseInstant (startDate : Nat) (s : Step) : Instant :=
  ⟨startDate + s.delayDays, s.timeOfDay⟩

/-- Modelled from the spec: §4.2 — when the window is enabled, advance
the instant by the drawn jitter offset (in minutes); the random draw is
an oracle supplied by the caller. -/
def jittered (w : SendWindowConfig) (draw : Nat) (i : Instant) : Instant :=
  if w.enabled then i.addMinutes draw else i

/-- Modelled from the spec: §4.2 Schedule Planner, one step — jitter is
added first, the calendar constraint is resolved second. -/
def planStep (startDate : Nat) (w : SendWindowConfig) (p : SendingDaysPolicy)
    (draw : Nat) (s : Step) : Option Instant :=
  resolve (jittered w draw (baseInstant startDate s)) p

/-- Modelled from the spec: §4.2 Schedule Planner — the ordered list of
target instants for one contact, one entry per step; the jitter oracle
is indexed by step position (drawn independently per step). -/
def plan (seq : List Step) (startDate : Nat) (w : SendWindowConfig)
    (p : SendingDaysPolicy) (draw : Nat → Nat) : List (Option Instant) :=
  (List.range seq.length).map
    (fun idx => planStep startDate w p (draw idx) (seq.getD idx ⟨0, 0⟩))

/-- The step delays are non-decreasing across indices (§3 invariant). -/
def delaysNonDecreasing : List Step → Bool
  | [] => true
  | [_] => true
  | a :: b :: rest =>
      decide (a.delayDays ≤ b.delayDays) && delaysNonDecreasing (b :: rest)

/-! ## Run configuration validation and StartRun -/

/-- Modelled from the spec: §7 error taxonomy — `ConfigurationError`
is the only launch-time failure. -/
inductive LaunchError where
  | configurationError
deriving Repr, DecidableEq

/-- Modelled from the spec: §3 **ThrottleConfig** — `maxPerMinute`
(default 20). -/
structure ThrottleConfig where
  maxPerMinute : Nat
deriving Repr, DecidableEq

/-- WorkItem status (§3). -/
inductive Status where
  | Pending | Due | InFlight | Sent | Failed | Skipped
deriving Repr, DecidableEq

/-- Is the status terminal for a work item? -/
def Status.isTerminal : Status → Bool
  | .Sent | .Failed | .Skipped => true
  | _ => false

/-- Modelled from the spec: §3 **WorkItem** —
`{runID, contactID, stepIndex, targetInstant, status, attempts}`
(the last error message is omitted; no claim concerns it). -/
structure WorkItem where
  runId : Nat
  contactId : String
  stepIndex : Nat
  targetInstant : Option Instant
  status : Status
  attempts : Nat
deriving Repr, DecidableEq

/-- Sequence Runner states (§4.6). -/
inductive RunState where
  | NotStarted | Planning | Running | Completed | Cancelled
deriving Repr, DecidableEq

/-- Is the run state terminal? -/
def RunState.isTerminal : RunState → Bool
  | .Completed | .Cancelled => true
  | _ => false

/-- Modelled from the spec: §3 **Run** — all WorkItems of one launch
plus an immutable snapshot of the configuration taken at launch. -/
structure Run where
  runId : Nat
  seq : List Step
  windowCfg : SendWindowConfig
  policy : SendingDaysPolicy
  throttleCfg : ThrottleConfig
  state : RunState
  items : List WorkItem

/-- Modelled from the spec: §6/§7 — the configuration checks performed
synchronously at `StartRun`: at least one allowed day, non-decreasing
step delays, non-negative jitter window. -/
def validConfig (seq : List Step) (w : SendWindowConfig)
    (p : SendingDaysPolicy) : Bool :=
  p.hasAllowedDay && delaysNonDecreasing seq && decide (0 ≤ w.jitterMinutes)

/-- Modelled from the spec: §4.6/§8 — planning creates exactly one
`Pending` WorkItem per (contact, step) pair, with the target instant
computed by the Schedule Planner; the jitter oracle is indexed by
(contact, step). -/
def makeWorkItems (runId : Nat) (contacts : List String) (seq : List Step)
    (startDate : Nat) (w : SendWindowConfig) (p : SendingDaysPolicy)
    (draw : String → Nat → Nat) : List WorkItem :=
  contacts.flatMap (fun c =>
    (List.range seq.length).map (fun idx =>
      { runId := runId, contactId := c, stepIndex := idx
        targetInstant := planStep startDate w p (draw c idx) (seq.getD idx ⟨0, 0⟩)
        status := .Pending, attempts := 0 }))

/-- Modelled from the spec: §6 **StartRun** — validates the
configuration synchronously; on failure the run never reaches
`Planning` (no `Run` value is produced at all); on success the plan is
materialized and the run enters the poll loop (`Running`), returning
the run identifier via the built `Run`. -/
def StartRun (seq : List Step) (contacts : List String) (startDate : Nat)
    (w : SendWindowConfig) (p : SendingDaysPolicy) (t : ThrottleConfig)
    (draw : String → Nat → Nat) (runId : Nat) : Except LaunchError Run :=
  if validConfig seq w p then
    .ok { runId := runId, seq := seq, windowCfg := w, policy := p
          throttleCfg := t, state := .Running
          items := makeWorkItems runId contacts seq startDate w p draw }
  else
    .error .configurationError

/-! ## Sequence Runner state machine -/

/-- Modelled from the spec: §4.6/§5/§6 — the operations that can reach
a run after launch: a poll tick (marks due items and finalizes the run),
a dispatch outcome for one item, user cancellation, and resume. -/
inductive RunOp where
  | tick (now : Instant)
  | dispatchOutcome (idx : Nat) (ok : Bool)
  | cancel
  | resume
deriving Repr, DecidableEq

/-- Does the instant of a pending item fall due at `now`? -/
def dueAt (now : Instant) (it : WorkItem) : Bool :=
  it.status = .Pending &&
    match it.targetInstant with
    | some t => t.toMinutes ≤ now.toMinutes
    | none => false

/-- Modelled from the spec: §4.6 `Planning → Running` poll loop — each
tick marks due `Pending` items `Due`; when every item is terminal the
run moves to `Completed`. -/
def tickRun (now : Instant) (r : Run) : Run :=
  if r.state = .Running then
    if r.items.all (fun it => it.status.isTerminal) then
      { r with state := .Completed }
    else
      { r with items := r.items.map (fun it =>
          if dueAt now it then { it with status := .Due } else it) }
  else r

/-- Modelled from the spec: §4.4 — a worker takes a `Due` item through
`InFlight` to `Sent` or `Failed`; modelled as one atomic outcome on the
item at position `idx`, only while the run is `Running`. -/
def dispatchRun (idx : Nat) (ok : Bool) (r : Run) : Run :=
  if r.state = .Running then
    { r with items := r.items.mapIdx (fun j it =>
        if j = idx ∧ it.status = .Due then
          { it with status := if ok then .Sent else .Failed
                    attempts := it.attempts + 1 }
        else it) }
  else r

/-- Modelled from the spec: §4.6/§6 `CancelRun` — idempotent, a no-op
if the run is already terminal; otherwise `Pending`/`Due` items are
marked `Skipped` and the run becomes `Cancelled`. -/
def cancelRun (r : Run) : Run :=
  if r.state.isTerminal then r
  else
    { r with state := .Cancelled
             items := r.items.map (fun it =>
               if it.status = .Pending ∨ it.status = .Due then
                 { it with status := .Skipped }
               else it) }

/-- Modelled from the spec: §4.5/§6/§7 `Resume` — a no-op on a terminal
run; otherwise re-attaches without re-planning, conservatively resetting
any `InFlight` item to `Pending`, and restores the poll loop. -/
def resumeRun (r : Run) : Run :=
  if r.state.isTerminal then r
  else
    { r with state := .Running
             items := r.items.map (fun it =>
               if it.status = .InFlight then { it with status := .Pending }
               else it) }

/-- Apply one operation to a run. -/
def applyOp (r : Run) : RunOp → Run
  | .tick now => tickRun now r
  | .dispatchOutcome idx ok => dispatchRun idx ok r
  | .cancel => cancelRun r
  | .resume => resumeRun r

/-! ## Throttle Gate

Modelled from the spec: §4.3 — a leaky-bucket gate over rational
timestamps (seconds).  Each acquisition is granted at the later of its
arrival time and the previous grant plus the minimum interval
`60 / maxPerMinute`; a grant is also the moment the worker marks the
item `InFlight` (§4.4). -/

/-- Modelled from the spec: §4.3 — one grant: the later of the arrival
time and the previous grant plus the minimum interval. -/
def grantNext (interval : ℚ) (last : Option ℚ) (req : ℚ) : ℚ :=
  match last with
  | none => req
  | some l => max req (l + interval)

/-- Modelled from the spec: §4.3 — grant times of successive
acquisitions given the previous grant (if any), FIFO order. -/
def grantTimesAux (interval : ℚ) : Option ℚ → List ℚ → List ℚ
  | _, [] => []
  | last, req :: reqs =>
    grantNext interval last req ::
      grantTimesAux interval (some (grantNext interval last req)) reqs

/-- Modelled from the spec: §4.3 — the grant (= `InFlight` transition)
times produced by the gate for a FIFO list of arrival times, with
minimum spacing `60 / maxPerMinute` seconds. -/
def grantTimes (t : ThrottleConfig) (reqs : List ℚ) : List ℚ :=
  grantTimesAux (60 / t.maxPerMinute) none reqs

/-! ### Throttle lemmas -/

lemma grantTimesAux_head_ge (δ l : ℚ) (reqs : List ℚ) :
    ∀ g ∈ (grantTimesAux δ (some l) reqs).head?, l + δ ≤ g := by
  cases reqs with
  | nil => simp [grantTimesAux]
  | cons r rs =>
    intro g hg
    simp [grantTimesAux, grantNext] at hg
    subst hg
    exact le_max_right _ _

lemma grantTimesAux_chain (δ : ℚ) :
    ∀ (reqs : List ℚ) (last : Option ℚ),
      (grantTimesAux δ last reqs).Chain' (fun a b => a + δ ≤ b) := by
  intro reqs
  induction reqs with
  | nil => intro last; simp [grantTimesAux]
  | cons r rs ih =>
    intro last
    show List.Chain' _ (grantNext δ last r ::
      grantTimesAux δ (some (grantNext δ last r)) rs)
    rw [List.chain'_cons']
    constructor
    · exact grantTimesAux_head_ge δ _ rs
    · exact ih _

lemma chain_spaced_all_ge (δ : ℚ) (hδ : 0 ≤ δ) :
    ∀ (rest : List ℚ) (a : ℚ),
      (a :: rest).Chain' (fun x y => x + δ ≤ y) →
      ∀ b ∈ rest, a + δ ≤ b := by
  intro rest
  induction rest with
  | nil => intro a _ b hb; simp at hb
  | cons c cs ih =>
    intro a hch b hb
    rw [List.chain'_cons] at hch
    obtain ⟨hac, hch'⟩ := hch
    rcases List.mem_cons.mp hb with hb | hb
    · subst hb; exact hac
    · have hcb : c + δ ≤ b := ih c hch' b hb
      linarith

lemma chain_spaced_pairwise (δ : ℚ) (hδ : 0 ≤ δ) :
    ∀ (l : List ℚ), l.Chain' (fun x y => x + δ ≤ y) →
      l.Pairwise (fun x y => x + δ ≤ y) := by
  intro l
  induction l with
  | nil => intro _; exact List.Pairwise.nil
  | cons a rest ih =>
    intro hch
    refine List.Pairwise.cons ?_ (ih hch.tail)
    exact chain_spaced_all_ge δ hδ rest a hch

lemma chain_spaced_window_count (δ : ℚ) (hδ : 0 < δ) :
    ∀ (l : List ℚ), l.Chain' (fun x y => x + δ ≤ y) →
      ∀ (t : ℚ) (j : Nat),
        (l.countP (fun g => decide (t ≤ g ∧ g < t + j * δ))) ≤ j := by
  intro l
  induction l with
  | nil => intro _ t j; simp
  | cons a rest ih =>
    intro hch t j
    by_cases ha : t ≤ a ∧ a < t + j * δ
    · have hj : 1 ≤ j := by
        by_contra hj0
        push_neg at hj0
        interval_cases j
        simp at ha
        obtain ⟨h1, h2⟩ := ha
        linarith
      have hrest : ∀ b ∈ rest, t + δ ≤ b := by
        intro b hb
        have := chain_spaced_all_ge δ (le_of_lt hδ) rest a hch b hb
        linarith [ha.1]
      have hmono : rest.countP (fun g => decide (t ≤ g ∧ g < t + j * δ)) ≤
          rest.countP (fun g =>
            decide ((t + δ) ≤ g ∧ g < (t + δ) + ((j - 1 : Nat) : ℚ) * δ)) := by
        apply List.countP_mono_left
        intro b hb hp
        simp only [decide_eq_true_eq] at hp ⊢
        refine ⟨hrest b hb, ?_⟩
        have h1 : ((j - 1 : Nat) : ℚ) = (j : ℚ) - 1 := by
          push_cast [hj]
          ring
        have h2 : (t + δ) + ((j - 1 : Nat) : ℚ) * δ = t + j * δ := by
          rw [h1]; ring
        rw [h2]
        exact hp.2
      have hih := ih hch.tail (t + δ) (j - 1)
      rw [List.countP_cons_of_pos]
      · omega
      · simp only [decide_eq_true_eq]
        exact ha
    · rw [List.countP_cons_of_neg]
      · exact ih hch.tail t j
      · simp only [decide_eq_true_eq]
        exact ha

/-! ## CSV parsing — `parseCSVRow` (funnel-forge/app/contacts/page.tsx)

Strings are modelled as lists of characters; iteration over the line
mirrors the source's index loop. -/

/-- The whitespace characters removed by `String.prototype.trim` that
occur in this setting (space, tab, newline, carriage return). -/
def isTrimmable (c : Char) : Bool :=
  c = ' ' || c = '\t' || c = '\n' || c = '\r'

/-- `trim`: strip trimmable characters from both ends, as JS
`String.prototype.trim`. -/
def jsTrim (s : List Char) : List Char :=
  ((s.dropWhile isTrimmable).reverse.dropWhile isTrimmable).reverse

/-- The loop of `parseCSVRow` (page.tsx lines 56–78): `current` is the
field being accumulated, the `Bool` is the `inQuotes` flag.  Inside
quotes a doubled `"` emits one literal `"` and skips a character; a
single `"` closes the quote.  Outside quotes a `"` opens a quote, the
delimiter pushes the trimmed field, anything else is accumulated. -/
def parseCSVRowAux (delimiter : Char) : List Char → Bool → List Char →
    List (List Char)
  | [], _, current => [jsTrim current]
  | '"' :: '"' :: rest2, true, current =>
      parseCSVRowAux delimiter rest2 true (current ++ ['"'])
  | '"' :: rest, true, current => parseCSVRowAux delimiter rest false current
  | ch :: rest, true, current =>
      parseCSVRowAux delimiter rest true (current ++ [ch])
  | '"' :: rest, false, current => parseCSVRowAux delimiter rest true current
  | ch :: rest, false, current =>
      if ch = delimiter then
        jsTrim current :: parseCSVRowAux delimiter rest false []
      else
        parseCSVRowAux delimiter rest false (current ++ [ch])

/-- `parseCSVRow(line, delimiter)` (page.tsx lines 51–80). -/
def parseCSVRow (line : List Char) (delimiter : Char) : List (List Char) :=
  parseCSVRowAux delimiter line false []

/-- Splitting a list of characters at every occurrence of the
delimiter; the reference behaviour for quote-free lines. -/
def splitOnChar (d : Char) : List Char → List (List Char)
  | [] => [[]]
  | c :: rest =>
    if c = d then [] :: splitOnChar d rest
    else
      match splitOnChar d rest with
      | [] => [[c]]
      | f :: fs => (c :: f) :: fs

/-! ## CSV import row handling (funnel-forge/app/contacts/page.tsx) -/

/-- The contact record of the contacts page (page.tsx lines 7–23). -/
structure Contact where
  id : String
  firstName : String
  lastName : String
  email : String
  personalEmail : String
  company : String
  title : String
  phone : String
  workPhone : String
  mobilePhone : String
  linkedIn : String
  city : String
  state : String
  industry : String
  tags : List String
deriving Repr, DecidableEq

/-- A parsed CSV row: total header → value map; absent headers map to
the empty string (in the source, `undefined` and a missing value are
both rejected by `findColumn`, so the empty string stands for both). -/
def Row := String → String

/-- `findColumn(row, ...keys)` (page.tsx lines 83–88): the value of the
first listed key that is present and non-empty, else the empty
string. -/
def findColumn (row : Row) : List String → String
  | [] => ""
  | key :: keys => if row key ≠ "" then row key else findColumn row keys

/-- `headers.forEach((h, idx) => (row[h] = values[idx] || ""))`
(page.tsx line 200): build the row map, a later duplicate header
overwriting an earlier one, missing values becoming the empty
string. -/
def buildRow (headers : List String) (values : List String) : Row :=
  (headers.enum).foldl
    (fun f p => fun k => if k = p.2 then values.getD p.1 "" else f k)
    (fun _ => "")

/-- The key list tried for the work email column (page.tsx 203–206). -/
def workEmailKeys : List String :=
  ["work email", "email", "email address", "e-mail", "workemail",
   "email1", "primary email", "business email"]

/-- The key list tried for the personal email column
(page.tsx 207–210). -/
def personalEmailKeys : List String :=
  ["personal email", "personalemail", "personal e-mail", "email2",
   "secondary email", "other email"]

/-- The key list tried for the first-name column (page.tsx 211–213). -/
def firstNameKeys : List String :=
  ["first name", "firstname", "first_name", "given name", "givenname"]

/-- One data row of `handleCSVImport` (page.tsx lines 195–273): rows
with fewer than two fields are skipped, columns are mapped through
`findColumn`, rows with no work email, no personal email and no first
name are skipped, and otherwise a contact is built with the fallback
`email: email || personalEmail` and
`personalEmail: email ? personalEmail : ""`. -/
def importRow (headers : List String) (values : List String)
    (newId : String) : Option Contact :=
  if values.length < 2 then none
  else
    let row := buildRow headers values
    let email := findColumn row workEmailKeys
    let personalEmail := findColumn row personalEmailKeys
    let firstName := findColumn row firstNameKeys
    let lastName := findColumn row ["last name", "lastname", "last_name",
      "surname", "family name"]
    if email = "" ∧ personalEmail = "" ∧ firstName = "" then none
    else some
      { id := newId
        firstName := firstName
        lastName := lastName
        email := if email ≠ "" then email else personalEmail
        personalEmail := if email ≠ "" then personalEmail else ""
        company := findColumn row ["company", "company name", "companyname",
          "organization", "account", "account name", "zoominfo company"]
        title := findColumn row ["job title", "title", "jobtitle", "job_title",
          "position", "role", "designation"]
        phone := findColumn row ["phone", "phone number", "direct phone",
          "direct phone number", "hq phone", "company phone", "business phone"]
        workPhone := findColumn row ["work phone", "workphone", "office phone",
          "company hq phone"]
        mobilePhone := findColumn row ["mobile phone", "mobilephone", "mobile",
          "cell", "cell phone", "mobile phone number"]
        linkedIn := findColumn row ["linkedin", "linkedin url", "linkedinurl",
          "linkedin profile", "person linkedin url",
          "linkedin contact profile url"]
        city := findColumn row ["city", "person city", "personcity",
          "contact city", "mailing city", "address city"]
        state := findColumn row ["state", "person state", "personstate",
          "contact state", "mailing state", "region", "province",
          "address state"]
        industry := findColumn row ["industry", "primary industry",
          "company industry", "primary sub-industry", "secondary industry"]
        tags := [] }

/-! ## Contact form save (funnel-forge/app/contacts/page.tsx) -/

/-- The form data: a contact without its identifier
(`Omit<Contact, "id">`). -/
structure ContactForm where
  firstName : String
  lastName : String
  email : String
  personalEmail : String
  company : String
  title : String
  phone : String
  workPhone : String
  mobilePhone : String
  linkedIn : String
  city : String
  state : String
  industry : String
  tags : List String
deriving Repr, DecidableEq

/-- Attach an identifier to form data, yielding a contact. -/
def ContactForm.withId (f : ContactForm) (i : String) : Contact :=
  { id := i, firstName := f.firstName, lastName := f.lastName
    email := f.email, personalEmail := f.personalEmail
    company := f.company, title := f.title, phone := f.phone
    workPhone := f.workPhone, mobilePhone := f.mobilePhone
    linkedIn := f.linkedIn, city := f.city, state := f.state
    industry := f.industry, tags := f.tags }

/-- `saveContact` (page.tsx lines 155–165): an empty first name or
empty email aborts without touching the list; editing replaces the
contact with the matching id, keeping its id; adding appends the form
data under a fresh id (`crypto.randomUUID()`, passed as `newId`). -/
def saveContact (formData : ContactForm) (editing : Option Contact)
    (newId : String) (contacts : List Contact) : List Contact :=
  if formData.firstName = "" ∨ formData.email = "" then contacts
  else
    match editing with
    | some ec => contacts.map (fun c =>
        if c.id = ec.id then formData.withId ec.id else c)
    | none => contacts ++ [formData.withId newId]

/-! ## Claim theorems -/

/-- C1: for every instant and every policy with a non-empty allowed-day
set, `resolve` returns an instant that is no earlier, falls on an
allowed weekday, preserves the time-of-day, equals the input when the
input's weekday is already allowed, and is found within at most 7
one-day advances. -/
theorem calendar_resolver_correct (i : Instant) (p : SendingDaysPolicy)
    (hp : p.hasAllowedDay = true) :
    ∃ i', resolve i p = some i' ∧
      i.toMinutes ≤ i'.toMinutes ∧
      p.allowedDays (weekday i'.day) = true ∧
      i'.minute = i.minute ∧
      (p.allowedDays (weekday i.day) = true → i' = i) ∧
      i'.day < i.day + 7 := by
  obtain ⟨i', h1, h2, h3, h4, h5, h6⟩ := resolve_eq_some p i hp
  exact ⟨i', h1, h2, h3, h4, h6, h5⟩

theorem calendar_resolver_correct_witness :
    SendingDaysPolicy.hasAllowedDay ⟨fun k => decide (k.val < 5), "UTC"⟩ = true ∧
    (∃ i', resolve ⟨5, 540⟩ ⟨fun k => decide (k.val < 5), "UTC"⟩ = some i' ∧
      Instant.toMinutes ⟨5, 540⟩ ≤ i'.toMinutes ∧
      (fun k : Fin 7 => decide (k.val < 5)) (weekday i'.day) = true ∧
      i'.minute = Instant.minute ⟨5, 540⟩ ∧
      ((fun k : Fin 7 => decide (k.val < 5)) (weekday 5) = true →
        i' = ⟨5, 540⟩) ∧
      i'.day < 5 + 7) :=
  ⟨by decide, calendar_resolver_correct ⟨5, 540⟩ ⟨fun k => decide (k.val < 5), "UTC"⟩ (by decide)⟩

/-- C3: `StartRun` with an invalid configuration — empty allowed-day
set, non-monotonic step delays, or a negative jitter window — fails
synchronously with `ConfigurationError` and produces no run at all (in
particular the run never reaches `Planning`); with a valid
configuration it returns the run (carrying the requested run id). -/
theorem startRun_validation (seq : List Step) (contacts : List String)
    (startDate : Nat) (w : SendWindowConfig) (p : SendingDaysPolicy)
    (t : ThrottleConfig) (draw : String → Nat → Nat) (runId : Nat) :
    ((p.hasAllowedDay = false ∨ delaysNonDecreasing seq = false ∨
        w.jitterMinutes < 0) →
      StartRun seq contacts startDate w p t draw runId =
        .error .configurationError) ∧
    (p.hasAllowedDay = true → delaysNonDecreasing seq = true →
      0 ≤ w.jitterMinutes →
      ∃ r, StartRun seq contacts startDate w p t draw runId = .ok r ∧
        r.runId = runId) := by
  constructor
  · intro h
    have hv : validConfig seq w p = false := by
      rcases h with h | h | h
      · simp [validConfig, h]
      · simp [validConfig, h]
      · simp [validConfig]
        intro _ _
        omega
    simp [StartRun, hv]
  · intro h1 h2 h3
    have hv : validConfig seq w p = true := by
      simp [validConfig, h1, h2, h3]
    refine ⟨{ runId := runId, seq := seq, windowCfg := w, policy := p
              throttleCfg := t, state := .Running
              items := makeWorkItems runId contacts seq startDate w p draw },
            ?_, rfl⟩
    simp [StartRun, hv]

theorem startRun_validation_witness :
    StartRun [] [] 0 ⟨false, -1⟩ ⟨fun _ => true, "UTC"⟩ ⟨20⟩
        (fun _ _ => 0) 7 = .error .configurationError :=
  (startRun_validation [] [] 0 ⟨false, -1⟩ ⟨fun _ => true, "UTC"⟩ ⟨20⟩
    (fun _ _ => 0) 7).1 (Or.inr (Or.inr (by decide)))

/-- C4: any two grants of the Throttle Gate are separated by at least
`60 / maxPerMinute` seconds, and consequently any half-open 60-second
window `[time, time + 60)` contains at most `maxPerMinute` grants —
i.e. at most `maxPerMinute` transitions into `InFlight`, since a worker
marks its item `InFlight` exactly when its acquisition is granted
(§4.4). -/
theorem throttle_spacing_and_window (t : ThrottleConfig) (reqs : List ℚ)
    (h : 0 < t.maxPerMinute) :
    (grantTimes t reqs).Pairwise
      (fun a b => a + 60 / (t.maxPerMinute : ℚ) ≤ b) ∧
    ∀ time : ℚ,
      (grantTimes t reqs).countP
        (fun g => decide (time ≤ g ∧ g < time + 60)) ≤ t.maxPerMinute := by
  have hm : (0 : ℚ) < (t.maxPerMinute : ℚ) := by exact_mod_cast h
  have hδ : (0 : ℚ) < 60 / (t.maxPerMinute : ℚ) := by positivity
  have hch := grantTimesAux_chain (60 / (t.maxPerMinute : ℚ)) reqs none
  constructor
  · exact chain_spaced_pairwise _ (le_of_lt hδ) _ hch
  · intro time
    have hcount := chain_spaced_window_count _ hδ _ hch time t.maxPerMinute
    have heq : (t.maxPerMinute : ℚ) * (60 / (t.maxPerMinute : ℚ)) = 60 := by
      field_simp
    rw [heq] at hcount
    exact hcount

theorem throttle_spacing_and_window_witness :
    0 < ThrottleConfig.maxPerMinute ⟨20⟩ ∧
    ((grantTimes ⟨20⟩ [0, 1, 9]).Pairwise
        (fun a b => a + 60 / ((ThrottleConfig.maxPerMinute ⟨20⟩ : Nat) : ℚ) ≤ b) ∧
      ∀ time : ℚ,
        (grantTimes ⟨20⟩ [0, 1, 9]).countP
          (fun g => decide (time ≤ g ∧ g < time + 60)) ≤
            ThrottleConfig.maxPerMinute ⟨20⟩) :=
  ⟨by decide, throttle_spacing_and_window ⟨20⟩ [0, 1, 9] (by decide)⟩

/-! ### Planner arithmetic -/

lemma addMinutes_toMinutes (i : Instant) (m : Nat) :
    (i.addMinutes m).toMinutes = i.toMinutes + m := by
  simp [Instant.addMinutes, Instant.toMinutes]
  omega

/-- C5: with the window enabled and a per-(contact, step) draw bounded
by `jitterMinutes`, the planner advances the base instant by exactly
the drawn offset — between 0 and `jitterMinutes` minutes — and applies
the Calendar Resolver after the jitter; the target instant is the value
of a pure function of the draw, hence deterministic for a fixed
draw. -/
theorem jitter_applied_before_resolver (startDate : Nat)
    (w : SendWindowConfig) (p : SendingDaysPolicy)
    (draw : String → Nat → Nat) (c : String) (idx : Nat) (s : Step)
    (hw : w.enabled = true)
    (hdraw : ∀ c' i', ((draw c' i' : Nat) : Int) ≤ w.jitterMinutes) :
    planStep startDate w p (draw c idx) s =
      resolve ((baseInstant startDate s).addMinutes (draw c idx)) p ∧
    (baseInstant startDate s).toMinutes ≤
      ((baseInstant startDate s).addMinutes (draw c idx)).toMinutes ∧
    ((((baseInstant startDate s).addMinutes (draw c idx)).toMinutes : Int)
      ≤ ((baseInstant startDate s).toMinutes : Int) + w.jitterMinutes) := by
  refine ⟨by simp [planStep, jittered, hw], ?_, ?_⟩
  · rw [addMinutes_toMinutes]
    omega
  · rw [addMinutes_toMinutes]
    have := hdraw c idx
    push_cast
    omega

theorem jitter_applied_before_resolver_witness :
    planStep 4 ⟨true, 30⟩ ⟨fun _ => true, "UTC"⟩ 25 ⟨0, 540⟩ =
      resolve ((baseInstant 4 ⟨0, 540⟩).addMinutes 25)
        ⟨fun _ => true, "UTC"⟩ ∧
    (baseInstant 4 ⟨0, 540⟩).toMinutes ≤
      ((baseInstant 4 ⟨0, 540⟩).addMinutes 25).toMinutes ∧
    ((((baseInstant 4 ⟨0, 540⟩).addMinutes 25).toMinutes : Int)
      ≤ ((baseInstant 4 ⟨0, 540⟩).toMinutes : Int) +
          SendWindowConfig.jitterMinutes ⟨true, 30⟩) :=
  jitter_applied_before_resolver 4 ⟨true, 30⟩ ⟨fun _ => true, "UTC"⟩
    (fun _ _ => 25) "c" 0 ⟨0, 540⟩ rfl
    (show ∀ (_ : String) (_ : Nat), ((25 : Nat) : Int) ≤ (30 : Int) from
      fun _ _ => by decide)

/-- C6: a run in a terminal state (`Completed` or `Cancelled`) is left
untouched — state and WorkItems — by every operation, and in
particular any number of `Resume` calls on a `Completed` run is a
no-op. -/
theorem terminal_state_immutable (r : Run) (h : r.state.isTerminal = true) :
    (∀ op, applyOp r op = r) ∧
    (r.state = .Completed →
      ∀ n, (fun rr => applyOp rr .resume)^[n] r = r) := by
  have hnr : r.state ≠ .Running := by
    intro he
    rw [he] at h
    simp [RunState.isTerminal] at h
  have hall : ∀ op, applyOp r op = r := by
    intro op
    cases op with
    | tick now => simp [applyOp, tickRun, hnr]
    | dispatchOutcome idx ok => simp [applyOp, dispatchRun, hnr]
    | cancel => simp [applyOp, cancelRun, h]
    | resume => simp [applyOp, resumeRun, h]
  refine ⟨hall, ?_⟩
  intro _ n
  induction n with
  | zero => rfl
  | succ m ih =>
    rw [Function.iterate_succ_apply, hall .resume]
    exact ih

theorem terminal_state_immutable_witness :
    RunState.isTerminal (Run.state
      { runId := 1, seq := [], windowCfg := ⟨false, 0⟩
        policy := ⟨fun _ => true, "UTC"⟩, throttleCfg := ⟨20⟩
        state := .Completed, items := [] }) = true ∧
    ((∀ op, applyOp
      { runId := 1, seq := [], windowCfg := ⟨false, 0⟩
        policy := ⟨fun _ => true, "UTC"⟩, throttleCfg := ⟨20⟩
        state := .Completed, items := [] } op =
      { runId := 1, seq := [], windowCfg := ⟨false, 0⟩
        policy := ⟨fun _ => true, "UTC"⟩, throttleCfg := ⟨20⟩
        state := .Completed, items := [] }) ∧
     (Run.state
      { runId := 1, seq := [], windowCfg := ⟨false, 0⟩
        policy := ⟨fun _ => true, "UTC"⟩, throttleCfg := ⟨20⟩
        state := .Completed, items := [] } = .Completed →
      ∀ n, (fun rr => applyOp rr .resume)^[n]
        { runId := 1, seq := [], windowCfg := ⟨false, 0⟩
          policy := ⟨fun _ => true, "UTC"⟩, throttleCfg := ⟨20⟩
          state := .Completed, items := [] } =
        { runId := 1, seq := [], windowCfg := ⟨false, 0⟩
          policy := ⟨fun _ => true, "UTC"⟩, throttleCfg := ⟨20⟩
          state := .Completed, items := [] })) :=
  ⟨rfl, terminal_state_immutable _ rfl⟩

/-- C7: planning creates exactly `contacts × steps` WorkItems — the
item count is the product of the two lengths, and the
(contactID, stepIndex) projection of the item list enumerates exactly
the pairs of a contact with a step position, in order, one item per
pair. -/
theorem workItems_one_per_pair (runId : Nat) (contacts : List String)
    (seq : List Step) (startDate : Nat) (w : SendWindowConfig)
    (p : SendingDaysPolicy) (draw : String → Nat → Nat) :
    (makeWorkItems runId contacts seq startDate w p draw).length =
      contacts.length * seq.length ∧
    (makeWorkItems runId contacts seq startDate w p draw).map
        (fun it => (it.contactId, it.stepIndex)) =
      contacts.flatMap (fun c =>
        (List.range seq.length).map (fun idx => (c, idx))) := by
  constructor
  · induction contacts with
    | nil => simp [makeWorkItems]
    | cons c cs ih =>
      simp only [makeWorkItems, List.flatMap_cons, List.length_append,
        List.length_map, List.length_range, List.length_cons] at ih ⊢
      rw [ih]
      ring
  · induction contacts with
    | nil => simp [makeWorkItems]
    | cons c cs ih =>
      simp only [makeWorkItems, List.flatMap_cons, List.map_append,
        List.map_map] at ih ⊢
      rw [ih]
      rfl


/-! ### Plan monotonicity -/

lemma delaysNonDecreasing_chain :
    ∀ (seq : List Step), delaysNonDecreasing seq = true →
      seq.Chain' (fun a b => a.delayDays ≤ b.delayDays)
  | [], _ => List.chain'_nil
  | [_], _ => List.chain'_singleton _
  | a :: b :: rest, h => by
    rw [delaysNonDecreasing, Bool.and_eq_true, decide_eq_true_eq] at h
    rw [List.chain'_cons]
    exact ⟨h.1, delaysNonDecreasing_chain (b :: rest) h.2⟩

lemma chain_measure_all_ge {α : Type} (f : α → Nat) :
    ∀ (rest : List α) (a : α),
      (a :: rest).Chain' (fun x y => f x ≤ f y) →
      ∀ b ∈ rest, f a ≤ f b := by
  intro rest
  induction rest with
  | nil => intro a _ b hb; simp at hb
  | cons c cs ih =>
    intro a hch b hb
    rw [List.chain'_cons] at hch
    obtain ⟨hac, hch'⟩ := hch
    rcases List.mem_cons.mp hb with hb | hb
    · subst hb; exact hac
    · exact le_trans hac (ih c hch' b hb)

lemma chain_measure_getD_mono {α : Type} (f : α → Nat) (dflt : α) :
    ∀ (l : List α), l.Chain' (fun x y => f x ≤ f y) →
      ∀ i j, i ≤ j → j < l.length → f (l.getD i dflt) ≤ f (l.getD j dflt) := by
  intro l
  induction l with
  | nil => intro _ i j _ hj; simp at hj
  | cons a rest ih =>
    intro hch i j hij hj
    cases i with
    | zero =>
      cases j with
      | zero => simp
      | succ j' =>
        have hj' : j' < rest.length := by simpa using hj
        have hmem : rest.getD j' dflt ∈ rest := by
          rw [List.getD_eq_getElem?_getD, List.getElem?_eq_getElem hj']
          exact List.getElem_mem hj'
        simpa using chain_measure_all_ge f rest a hch _ hmem
    | succ i' =>
      cases j with
      | zero => omega
      | succ j' =>
        have hj' : j' < rest.length := by simpa using hj
        simpa using ih hch.tail i' j' (by omega) hj'

lemma plan_getElem? (seq : List Step) (startDate : Nat)
    (w : SendWindowConfig) (p : SendingDaysPolicy) (draw : Nat → Nat)
    (i : Nat) (hi : i < seq.length) :
    (plan seq startDate w p draw)[i]? =
      some (planStep startDate w p (draw i) (seq.getD i ⟨0, 0⟩)) := by
  simp [plan, List.getElem?_map, List.getElem?_range, hi]

/-- C2 counterexample: a sequence whose `delayDays` are non-decreasing
(two steps on the same day, the second at an earlier time-of-day)
yields a plan whose first target instant is strictly after the second,
even with jitter disabled and all weekdays allowed — so non-decreasing
delays alone do not make the per-contact plan monotone. -/
theorem plan_monotone_counterexample :
    delaysNonDecreasing [⟨0, 600⟩, ⟨0, 540⟩] = true ∧
    plan [⟨0, 600⟩, ⟨0, 540⟩] 0 ⟨false, 0⟩ ⟨fun _ => true, "UTC"⟩
        (fun _ => 0) = [some ⟨0, 600⟩, some ⟨0, 540⟩] ∧
    ¬ (Instant.toMinutes ⟨0, 600⟩ ≤ Instant.toMinutes ⟨0, 540⟩) :=
  ⟨by decide, by decide, by decide⟩

/-- C2 (amended): for a sequence with non-decreasing `delayDays` whose
steps all share one common time-of-day, and with jitter disabled, the
per-contact plan is monotonically non-decreasing: for steps `i < j`
the computed target instant of step `i` is at most that of step
`j`. -/
theorem plan_monotone_amended (seq : List Step) (startDate : Nat)
    (w : SendWindowConfig) (p : SendingDaysPolicy) (draw : Nat → Nat)
    (tod : Nat)
    (hdelays : delaysNonDecreasing seq = true)
    (htod : ∀ s ∈ seq, s.timeOfDay = tod)
    (hw : w.enabled = false)
    (i j : Nat) (hij : i < j) (hj : j < seq.length)
    (ti tj : Instant)
    (hti : (plan seq startDate w p draw)[i]? = some (some ti))
    (htj : (plan seq startDate w p draw)[j]? = some (some tj)) :
    ti.toMinutes ≤ tj.toMinutes := by
  have hi : i < seq.length := lt_trans hij hj
  rw [plan_getElem? seq startDate w p draw i hi] at hti
  rw [plan_getElem? seq startDate w p draw j hj] at htj
  set si := seq.getD i ⟨0, 0⟩ with hsi
  set sj := seq.getD j ⟨0, 0⟩ with hsj
  have hti' : planStep startDate w p (draw i) si = some ti :=
    Option.some.inj hti
  have htj' : planStep startDate w p (draw j) sj = some tj :=
    Option.some.inj htj
  -- membership of the two steps, for the shared time-of-day
  have hmem : ∀ k, k < seq.length → seq.getD k ⟨0, 0⟩ ∈ seq := by
    intro k hk
    rw [List.getD_eq_getElem?_getD, List.getElem?_eq_getElem hk]
    exact List.getElem_mem hk
  have htodi : si.timeOfDay = tod := htod _ (hmem i hi)
  have htodj : sj.timeOfDay = tod := htod _ (hmem j hj)
  -- delays are monotone across indices
  have hchain := delaysNonDecreasing_chain seq hdelays
  have hdd : si.delayDays ≤ sj.delayDays :=
    chain_measure_getD_mono Step.delayDays ⟨0, 0⟩ seq hchain i j
      (le_of_lt hij) hj
  -- unfold the two plan entries
  rw [planStep, jittered, hw] at hti' htj'
  simp only [Bool.false_eq_true, if_false] at hti' htj'
  rw [resolve] at hti' htj'
  rcases Option.map_eq_some'.mp hti' with ⟨ei, hei, hti2⟩
  rcases Option.map_eq_some'.mp htj' with ⟨ej, hej, htj2⟩
  have hdays : (baseInstant startDate si).day ≤
      (baseInstant startDate sj).day := by
    show startDate + si.delayDays ≤ startDate + sj.delayDays
    omega
  have hee : ei ≤ ej := nextAllowedFrom_mono p _ _ ei ej hdays hei hej
  rw [← hti2, ← htj2]
  show ei * 1440 + (baseInstant startDate si).minute ≤
    ej * 1440 + (baseInstant startDate sj).minute
  have hmi : (baseInstant startDate si).minute = tod := htodi
  have hmj : (baseInstant startDate sj).minute = tod := htodj
  omega

theorem plan_monotone_amended_witness :
    delaysNonDecreasing [⟨0, 540⟩, ⟨3, 540⟩] = true ∧
    (∀ s ∈ [(⟨0, 540⟩ : Step), ⟨3, 540⟩], s.timeOfDay = 540) ∧
    (plan [⟨0, 540⟩, ⟨3, 540⟩] 4 ⟨false, 0⟩
        ⟨fun k => decide (k.val < 5), "UTC"⟩ (fun _ => 0))[0]? =
      some (some ⟨4, 540⟩) ∧
    (plan [⟨0, 540⟩, ⟨3, 540⟩] 4 ⟨false, 0⟩
        ⟨fun k => decide (k.val < 5), "UTC"⟩ (fun _ => 0))[1]? =
      some (some ⟨7, 540⟩) ∧
    Instant.toMinutes ⟨4, 540⟩ ≤ Instant.toMinutes ⟨7, 540⟩ :=
  ⟨by decide, by decide, by decide, by decide,
    plan_monotone_amended [⟨0, 540⟩, ⟨3, 540⟩] 4 ⟨false, 0⟩
      ⟨fun k => decide (k.val < 5), "UTC"⟩ (fun _ => 0) 540
      (by decide) (by decide) rfl 0 1 (by decide) (by decide)
      ⟨4, 540⟩ ⟨7, 540⟩ (by decide) (by decide)⟩

/-! ### CSV parser lemmas -/

/-- Prepend an opening accumulator onto the first field of a split. -/
def consFirst (cur : List Char) : List (List Char) → List (List Char)
  | [] => [cur]
  | f :: fs => (cur ++ f) :: fs

lemma splitOnChar_ne_nil (d : Char) : ∀ (l : List Char), splitOnChar d l ≠ [] := by
  intro l
  cases l with
  | nil => simp [splitOnChar]
  | cons c rest =>
    rw [splitOnChar]
    by_cases hd : c = d
    · simp [hd]
    · simp only [hd, if_false]
      cases splitOnChar d rest <;> simp

lemma parseCSVRowAux_no_quote (d : Char) :
    ∀ (l : List Char), (∀ c ∈ l, c ≠ '"') → ∀ (cur : List Char),
      parseCSVRowAux d l false cur =
        (consFirst cur (splitOnChar d l)).map jsTrim := by
  intro l
  induction l with
  | nil =>
    intro _ cur
    simp [parseCSVRowAux, splitOnChar, consFirst]
  | cons c rest ih =>
    intro hnq cur
    have hc : c ≠ '"' := hnq c (List.mem_cons_self c rest)
    have hrest : ∀ x ∈ rest, x ≠ '"' :=
      fun x hx => hnq x (List.mem_cons_of_mem c hx)
    by_cases hd : c = d
    · have hcd : d ≠ '"' := hd ▸ hc
      have hstep : parseCSVRowAux d (c :: rest) false cur =
          jsTrim cur :: parseCSVRowAux d rest false [] := by
        rw [hd]
        simp [parseCSVRowAux, hcd]
      rw [hstep, ih hrest []]
      rw [show splitOnChar d (c :: rest) = [] :: splitOnChar d rest from by
        rw [splitOnChar]
        simp [hd]]
      cases hsp : splitOnChar d rest with
      | nil => exact absurd hsp (splitOnChar_ne_nil d rest)
      | cons f fs => simp [consFirst]
    · have hstep : parseCSVRowAux d (c :: rest) false cur =
          parseCSVRowAux d rest false (cur ++ [c]) := by
        simp [parseCSVRowAux, hc, hd]
      rw [hstep, ih hrest (cur ++ [c])]
      cases hsp : splitOnChar d rest with
      | nil => exact absurd hsp (splitOnChar_ne_nil d rest)
      | cons f fs =>
        rw [show splitOnChar d (c :: rest) = (c :: f) :: fs from by
          rw [splitOnChar]
          simp [hd, hsp]]
        simp [consFirst]

lemma parseCSVRowAux_quoted (d : Char) :
    ∀ (content : List Char), (∀ c ∈ content, c ≠ '"') →
      ∀ (tail cur : List Char),
        parseCSVRowAux d (content ++ tail) true cur =
          parseCSVRowAux d tail true (cur ++ content) := by
  intro content
  induction content with
  | nil => intro _ tail cur; simp
  | cons c cs ih =>
    intro hnq tail cur
    have hc : c ≠ '"' := hnq c (List.mem_cons_self c cs)
    have hcs : ∀ x ∈ cs, x ≠ '"' :=
      fun x hx => hnq x (List.mem_cons_of_mem c hx)
    have hstep : parseCSVRowAux d ((c :: cs) ++ tail) true cur =
        parseCSVRowAux d (cs ++ tail) true (cur ++ [c]) := by
      simp [parseCSVRowAux, hc]
    rw [hstep, ih hcs tail (cur ++ [c])]
    simp

lemma parseCSVRowAux_length (d : Char) (l : List Char) (q : Bool)
    (cur : List Char) : 1 ≤ (parseCSVRowAux d l q cur).length := by
  induction l, q, cur using parseCSVRowAux.induct d <;>
    simp_all [parseCSVRowAux]

/-- C8: `parseCSVRow` always returns at least one field; on a line
containing no double-quote it returns exactly the segments of the line
split on the delimiter, each trimmed; and a doubled double-quote
inside a quoted field yields one literal double-quote in the resulting
field. -/
theorem parseCSVRow_spec (line : List Char) (d : Char) :
    1 ≤ (parseCSVRow line d).length ∧
    ((∀ c ∈ line, c ≠ '"') →
      parseCSVRow line d = (splitOnChar d line).map jsTrim) ∧
    (∀ a b : List Char, (∀ c ∈ a, c ≠ '"') → (∀ c ∈ b, c ≠ '"') →
      parseCSVRow ('"' :: (a ++ ('"' :: '"' :: (b ++ ['"'])))) d =
        [jsTrim (a ++ '"' :: b)]) := by
  refine ⟨parseCSVRowAux_length d line false [], ?_, ?_⟩
  · intro hnq
    rw [parseCSVRow, parseCSVRowAux_no_quote d line hnq []]
    cases hsp : splitOnChar d line with
    | nil => exact absurd hsp (splitOnChar_ne_nil d line)
    | cons f fs => simp [consFirst]
  · intro a b ha hb
    rw [parseCSVRow]
    have h1 : parseCSVRowAux d ('"' :: (a ++ ('"' :: '"' :: (b ++ ['"'])))) false [] =
        parseCSVRowAux d (a ++ ('"' :: '"' :: (b ++ ['"']))) true [] := by
      simp [parseCSVRowAux]
    rw [h1, parseCSVRowAux_quoted d a ha _ []]
    have h2 : parseCSVRowAux d ('"' :: '"' :: (b ++ ['"'])) true ([] ++ a) =
        parseCSVRowAux d (b ++ ['"']) true (([] ++ a) ++ ['"']) := by
      simp [parseCSVRowAux]
    rw [h2, parseCSVRowAux_quoted d b hb _ _]
    have h3 : parseCSVRowAux d ['"'] true ((([] ++ a) ++ ['"']) ++ b) =
        [jsTrim ((([] ++ a) ++ ['"']) ++ b)] := by
      simp [parseCSVRowAux]
    rw [h3]
    simp

theorem parseCSVRow_spec_witness :
    parseCSVRow ['x', ' ', ',', 'y'] ',' =
      (splitOnChar ',' ['x', ' ', ',', 'y']).map jsTrim :=
  (parseCSVRow_spec ['x', ' ', ',', 'y'] ',').2.1 (by decide)

/-- C9: a CSV data row whose mapped work email, personal email and
first name are all empty is skipped (no contact is created); every row
that is imported yields a contact whose `email` is the mapped work
email when that is non-empty and the mapped personal email otherwise,
and whose `personalEmail` is the mapped personal email only when a
work email is present and the empty string otherwise. -/
theorem importRow_skip_and_email (headers values : List String)
    (newId : String) :
    ((findColumn (buildRow headers values) workEmailKeys = "" ∧
      findColumn (buildRow headers values) personalEmailKeys = "" ∧
      findColumn (buildRow headers values) firstNameKeys = "") →
      importRow headers values newId = none) ∧
    (∀ c : Contact, importRow headers values newId = some c →
      c.email = (if findColumn (buildRow headers values) workEmailKeys ≠ ""
        then findColumn (buildRow headers values) workEmailKeys
        else findColumn (buildRow headers values) personalEmailKeys) ∧
      c.personalEmail =
        (if findColumn (buildRow headers values) workEmailKeys ≠ ""
          then findColumn (buildRow headers values) personalEmailKeys
          else "")) := by
  constructor
  · rintro ⟨h1, h2, h3⟩
    rw [importRow]
    by_cases hv : values.length < 2
    · simp [hv]
    · simp [hv, h1, h2, h3]
  · intro c hc
    rw [importRow] at hc
    by_cases hv : values.length < 2
    · simp [hv] at hc
    · simp only [hv, if_false] at hc
      by_cases hskip : findColumn (buildRow headers values) workEmailKeys = "" ∧
          findColumn (buildRow headers values) personalEmailKeys = "" ∧
          findColumn (buildRow headers values) firstNameKeys = ""
      · simp [hskip] at hc
      · simp only [hskip, if_false] at hc
        rw [← Option.some.inj hc]
        exact ⟨rfl, rfl⟩

theorem importRow_skip_and_email_witness :
    Contact.email ⟨"i", "Jo", "", "j@x", "", "", "", "", "", "", "", "", "", "", []⟩ =
      (if findColumn (buildRow ["first name", "email"] ["Jo", "j@x"]) workEmailKeys ≠ ""
        then findColumn (buildRow ["first name", "email"] ["Jo", "j@x"]) workEmailKeys
        else findColumn (buildRow ["first name", "email"] ["Jo", "j@x"]) personalEmailKeys) ∧
    Contact.personalEmail ⟨"i", "Jo", "", "j@x", "", "", "", "", "", "", "", "", "", "", []⟩ =
      (if findColumn (buildRow ["first name", "email"] ["Jo", "j@x"]) workEmailKeys ≠ ""
        then findColumn (buildRow ["first name", "email"] ["Jo", "j@x"]) personalEmailKeys
        else "") :=
  (importRow_skip_and_email ["first name", "email"] ["Jo", "j@x"] "i").2
    ⟨"i", "Jo", "", "j@x", "", "", "", "", "", "", "", "", "", "", []⟩ (by decide)

/-- C10: `saveContact` with an empty form first name or email leaves
the contact list completely unchanged; and every contact in the saved
list is either one of the pre-existing contacts or carries the form's
(non-empty) first name and email — so every contact created or edited
through the form has a non-empty first name and email. -/
theorem saveContact_validation (fd : ContactForm) (editing : Option Contact)
    (newId : String) (contacts : List Contact) :
    ((fd.firstName = "" ∨ fd.email = "") →
      saveContact fd editing newId contacts = contacts) ∧
    (∀ c ∈ saveContact fd editing newId contacts,
      c ∈ contacts ∨
        (c.firstName = fd.firstName ∧ c.email = fd.email ∧
          fd.firstName ≠ "" ∧ fd.email ≠ "")) := by
  constructor
  · intro h
    rw [saveContact.eq_def, if_pos h]
  · intro c hc
    rw [saveContact.eq_def] at hc
    by_cases hg : fd.firstName = "" ∨ fd.email = ""
    · rw [if_pos hg] at hc
      exact Or.inl hc
    · rw [if_neg hg] at hc
      push_neg at hg
      cases editing with
      | some ec =>
        rcases List.mem_map.mp hc with ⟨orig, horig, heq⟩
        by_cases hid : orig.id = ec.id
        · rw [if_pos hid] at heq
          right
          rw [← heq]
          exact ⟨rfl, rfl, hg.1, hg.2⟩
        · rw [if_neg hid] at heq
          left
          rw [← heq]
          exact horig
      | none =>
        rcases List.mem_append.mp hc with h | h
        · exact Or.inl h
        · right
          simp at h
          rw [h]
          exact ⟨rfl, rfl, hg.1, hg.2⟩

theorem saveContact_validation_witness :
    saveContact ⟨"", "D", "e@x", "", "", "", "", "", "", "", "", "", "", []⟩
      none "n" [] = [] :=
  (saveContact_validation ⟨"", "D", "e@x", "", "", "", "", "", "", "", "", "", "", []⟩
    none "n" []).1 (Or.inl rfl)
